import Mathlib

/-
Verification development for the tw-cn-core class formatter
(`packages/tw-cn-core/src/index.ts` and `types.ts`).

The TypeScript core is shallowly embedded below:
  * strings are modelled as Lean `String` / `List Char`;
  * JS `RegExp` values from the source are modelled by executable boolean
    matchers that implement exactly the regex each definition carries;
  * the `while (partsRe.test(rest))` loop of `stripVariantsWith` is modelled
    with an explicit fuel argument (`stripGo`), with fuel-irrelevance proved;
  * the runtime `TypeError` thrown by `buckets.get(item.group)!.push(...)`
    when a bucket is missing is modelled by an `Option` result (`none`).
-/

set_option maxRecDepth 8000

namespace TwCn

/-- The ten semantic group keys (`types.ts`, `GroupKey`). -/
inductive GroupKey where
  | layout
  | spacing
  | sizing
  | typography
  | colors
  | borders
  | effects
  | interactivity
  | accessibility
  | misc
deriving DecidableEq, Repr

/-- A `tailwind.customUtilities` entry (`Array<RegExp | string>` in `types.ts`).
A string entry is matched as a literal prefix (`base.startsWith(pat)`); a
`RegExp` entry is modelled by its boolean test function (`pat.test(base)`). -/
inductive CustomUtil where
  | lit (s : String)
  | pat (test : String → Bool)

/-- `FormatOptions["tailwind"]`.  The field named `prefix` in the source is
called `pfx` here.  JS `undefined` collapses with the defaults used by the
code: an absent `prefix` behaves as `""` (`withPrefix` returns the regex
unchanged for both), and an absent `variants` behaves as `[]` (both
`makeVariantRegex` and `variantPriorityScore` treat them identically). -/
structure TwConf where
  pfx : String := ""
  variants : List String := []
  customUtilities : List CustomUtil := []

/-- `FormatOptions` from `types.ts` (the reserved `strictTailwindOrder` flag is
never read by the code and is omitted). -/
structure FormatOptions where
  groupOrder : Option (List GroupKey) := none
  splitPerGroup : Bool := false
  tailwind : TwConf := {}

/-- `DEFAULT_ORDER` from `index.ts`. -/
def DEFAULT_ORDER : List GroupKey :=
  [.layout, .spacing, .sizing, .typography, .colors, .borders,
   .effects, .interactivity, .accessibility, .misc]

/-- `DEFAULT_VARIANTS` from `index.ts`. -/
def DEFAULT_VARIANTS : List String :=
  ["sm", "md", "lg", "xl", "2xl",
   "dark", "light", "portrait", "landscape", "motion-safe", "motion-reduce",
   "hover", "focus", "focus-visible", "focus-within", "active", "visited",
   "disabled",
   "first", "last", "only", "odd", "even",
   "open", "checked", "required", "invalid",
   "rtl", "ltr",
   "group-hover", "group-focus", "peer-hover", "peer-focus"]

/-- The character class of the JS regex `/\s/` used by `splitTokens`. -/
def isWsChar (c : Char) : Bool :=
  c = ' ' ∨ c = '\t' ∨ c = '\n' ∨ c = '\x0b' ∨ c = '\x0c' ∨ c = '\r' ∨
  c = '\u00a0' ∨ c = '\u1680' ∨ ('\u2000' ≤ c ∧ c ≤ '\u200a') ∨
  c = '\u2028' ∨ c = '\u2029' ∨ c = '\u202f' ∨ c = '\u205f' ∨
  c = '\u3000' ∨ c = '\ufeff'

/-- The characters matched by `.` in a JS regex without the `s` flag
(everything except line terminators). -/
def isDotChar (c : Char) : Bool :=
  ¬(c = '\n' ∨ c = '\r' ∨ c = '\u2028' ∨ c = '\u2029')

/-- One step of the bracket-depth update of `splitTokens`:
`if (ch === "[") depth++; if (ch === "]" && depth > 0) depth--;`. -/
def depthStep (d : Nat) (c : Char) : Nat :=
  if c = '[' then d + 1 else if c = ']' ∧ 0 < d then d - 1 else d

/-- Bracket depth of the scanner just before it processes character `i`. -/
def depthAt (l : List Char) (i : Nat) : Nat :=
  List.foldl depthStep 0 (l.take i)

/-- The character loop of `splitTokens` (`cur`/`depth` are the loop state). -/
def splitAux : List Char → List Char → Nat → List String
  | [], cur, _ => if cur.isEmpty then [] else [String.mk cur]
  | c :: rest, cur, d =>
    let d2 := depthStep d c
    if isWsChar c ∧ d2 = 0 then
      (if cur.isEmpty then [] else [String.mk cur]) ++ splitAux rest [] d2
    else
      splitAux rest (cur ++ [c]) d2

/-- `splitTokens` from `index.ts` (including the final `filter(Boolean)`). -/
def splitTokens (input : String) : List String :=
  (splitAux input.data [] 0).filter (fun t => ¬(t = ""))

/-- `tokenize` from `index.ts`. -/
def tokenize (input : String) : List String :=
  splitTokens input

/-- `baseList` inside `makeVariantRegex`:
`variants && variants.length ? variants : DEFAULT_VARIANTS`. -/
def variantBaseList (variants : List String) : List String :=
  if variants.isEmpty then DEFAULT_VARIANTS else variants

/-- ASCII lower-casing, modelling the case-insensitive (`i`) flag of the
variant regex. -/
def toLow (c : Char) : Char :=
  if 'A' ≤ c ∧ c ≤ 'Z' then Char.ofNat (c.toNat + 32) else c

/-- Case-insensitive "the first list starts the second list". -/
def ciStarts : List Char → List Char → Bool
  | [], _ => true
  | _ :: _, [] => false
  | a :: t, b :: u => toLow a = toLow b && ciStarts t u

/-- The arbitrary-variant alternative `\[[^\]]+\]` followed by `:` of
`makeVariantRegex`; returns the matched text `m[0]` (brackets and colon
included) when it matches at the start of `rest`. -/
def arbMatch : List Char → Option (List Char)
  | c :: t =>
    if c = '[' then
      let inner := t.takeWhile (fun x => ¬(x = ']'))
      let after := t.drop inner.length
      if after.head? = some ']' ∧ (after.drop 1).head? = some ':' ∧ ¬inner.isEmpty then
        some ('[' :: (inner ++ [']', ':']))
      else none
    else none
  | [] => none

/-- The named-variant alternatives of `makeVariantRegex`, tried in list order
(JS alternation order), each matched case-insensitively and followed by `:`;
returns the matched text `m[0]`. -/
def namedMatch : List String → List Char → Option (List Char)
  | [], _ => none
  | v :: vs, rest =>
    if ciStarts v.data rest ∧ (rest.drop v.data.length).head? = some ':' then
      some (rest.take (v.data.length + 1))
    else
      namedMatch vs rest

/-- One match of the compiled variant regex `^(?:ARB|(?:v1|v2|...)):i` at the
start of `rest` (the arbitrary alternative is listed first in the union). -/
def variantMatch (bl : List String) (rest : List Char) : Option (List Char) :=
  match arbMatch rest with
  | some raw => some raw
  | none => namedMatch bl rest

/-- The `while (partsRe.test(rest))` loop of `stripVariantsWith`, with fuel.
Each pass appends `m[0].slice(0, -1)` as a variant label and drops `m[0]`
from the front of the token; fuel `rest.length + 1` always suffices (see the
termination theorem below). -/
def stripGo (bl : List String) : Nat → List Char → List String × List Char
  | 0, rest => ([], rest)
  | fuel + 1, rest =>
    match variantMatch bl rest with
    | none => ([], rest)
    | some raw =>
      let out := stripGo bl fuel (rest.drop raw.length)
      (String.mk raw.dropLast :: out.1, out.2)

/-- `stripVariantsWith` from `index.ts`: the ordered variant labels and the
remaining base (the unused `variant` accumulator of the source is the
concatenation of the stripped `m[0]` segments and is not materialised). -/
def stripVariantsWith (bl : List String) (token : String) : List String × List Char :=
  stripGo bl (token.data.length + 1) token.data

/-- Boolean "the first list is a prefix of the second" (case-sensitive). -/
def lpre : List Char → List Char → Bool
  | [], _ => true
  | _ :: _, [] => false
  | a :: t, b :: u => a = b && lpre t u

/-- `b.startsWith(p)` on strings. -/
def hasPre (b p : String) : Bool := lpre p.data b.data

/-- `b` starts with one of the literal alternatives. -/
def startsWithAny (b : String) (ps : List String) : Bool :=
  ps.any (fun p => lpre p.data b.data)

/-- Drop the first `n` characters of a string. -/
def strDrop (b : String) (n : Nat) : String := String.mk (b.data.drop n)

/-- `-` followed by at least one `.`-matchable character (the `-.+` part of
the spacing regex). -/
def dashDot : List Char → Bool
  | '-' :: d :: _ => isDotChar d
  | _ => false

/-- The `p[trblxy]?-.+` / `m[trblxy]?-.+` shapes of the spacing regex,
parameterised by the leading letter. -/
def pmMatch (c0 : Char) : List Char → Bool
  | c :: rest =>
    c = c0 &&
      ((match rest with
        | t :: rest2 =>
          (t = 't' ∨ t = 'r' ∨ t = 'b' ∨ t = 'l' ∨ t = 'x' ∨ t = 'y') &&
            dashDot rest2
        | [] => false) ||
       dashDot rest)
  | [] => false

/-- Layout regex of `classifyWithConfig`. -/
def layoutTest (b : String) : Bool :=
  startsWithAny b
    ["container", "block", "inline", "flex", "grid", "table", "flow-",
     "contents", "col-", "row-", "justify-", "items-", "content-", "place-",
     "order-", "gap-"]

/-- Spacing regex `^(p[trblxy]?-.+|m[trblxy]?-.+|space-[xy]-)`. -/
def spacingTest (b : String) : Bool :=
  pmMatch 'p' b.data || pmMatch 'm' b.data ||
  hasPre b "space-x-" || hasPre b "space-y-"

/-- Sizing regex of `classifyWithConfig`. -/
def sizingTest (b : String) : Bool :=
  startsWithAny b ["w-", "h-", "min-w-", "max-w-", "min-h-", "max-h-", "aspect-"]

/-- Typography regex
`^(font-|text-(?:xs|sm|base|lg|xl|\[)|leading-|tracking-|list-|truncate|line-clamp-)`. -/
def typographyTest (b : String) : Bool :=
  startsWithAny b
    ["font-", "text-xs", "text-sm", "text-base", "text-lg", "text-xl",
     "text-[", "leading-", "tracking-", "list-", "truncate", "line-clamp-"]

/-- Colors regex
`^(bg-|text-(?!xs|sm|base|lg|xl)|from-|via-|to-|decoration-|underline|ring-|shadow-|opacity-)`
(the second alternative is `text-` with a negative lookahead). -/
def colorsTest (b : String) : Bool :=
  hasPre b "bg-" ||
  (hasPre b "text-" && ¬(startsWithAny (strDrop b 5) ["xs", "sm", "base", "lg", "xl"])) ||
  startsWithAny b ["from-", "via-", "to-", "decoration-", "underline", "ring-",
                   "shadow-", "opacity-"]

/-- Borders regex of `classifyWithConfig`. -/
def bordersTest (b : String) : Bool :=
  startsWithAny b ["border", "rounded", "divide-", "outline"]

/-- Effects regex of `classifyWithConfig`. -/
def effectsTest (b : String) : Bool :=
  startsWithAny b
    ["shadow-", "blur", "backdrop-", "transform", "scale-", "rotate-",
     "translate-", "skew-"]

/-- Interactivity regex of `classifyWithConfig`. -/
def interactivityTest (b : String) : Bool :=
  startsWithAny b
    ["cursor-", "select-", "pointer-events-", "accent-", "appearance-",
     "scroll-", "transition", "duration-", "ease-", "animate-"]

/-- Accessibility regex of `classifyWithConfig`. -/
def accessibilityTest (b : String) : Bool :=
  startsWithAny b ["sr-only", "not-sr-only", "aria-", "data-"]

/-- `withPrefix` applied to an anchored pattern, then `.test(base)`: with a
non-empty configured prefix `px` the pattern becomes `^px(...)`, so the test
succeeds iff `base` starts with `px` and the rest matches the original
anchored pattern. -/
def testWithPx (px : String) (test : String → Bool) (b : String) : Bool :=
  if px = "" then test b else lpre px.data b.data && test (strDrop b px.data.length)

/-- One `customUtilities` entry matching `base` (string entries:
`base.startsWith(pat)`; regex entries: `pat.test(base)`). -/
def cuMatches (base : String) : CustomUtil → Bool
  | .lit s => lpre s.data base.data
  | .pat f => f base

/-- `classifyWithConfig` from `index.ts`: custom utilities short-circuit to
`misc`, then the nine heuristic rule groups in source order, then `misc`. -/
def classifyWithConfig (base : String) (tw : TwConf) : GroupKey :=
  if tw.customUtilities.any (cuMatches base) then .misc
  else if testWithPx tw.pfx layoutTest base then .layout
  else if testWithPx tw.pfx spacingTest base then .spacing
  else if testWithPx tw.pfx sizingTest base then .sizing
  else if testWithPx tw.pfx typographyTest base then .typography
  else if testWithPx tw.pfx colorsTest base then .colors
  else if testWithPx tw.pfx bordersTest base then .borders
  else if testWithPx tw.pfx effectsTest base then .effects
  else if testWithPx tw.pfx interactivityTest base then .interactivity
  else if testWithPx tw.pfx accessibilityTest base then .accessibility
  else .misc

/-- Suffix of `b` from position `n` consists of `.`-matchable characters only
(used for the `$`-anchored order hints, where `.*$` must reach the end). -/
def allDotFrom (b : String) (n : Nat) : Bool :=
  (b.data.drop n).all isDotChar

/-- First character of `b` is `c0`. -/
def headIs (c0 : Char) (b : String) : Bool :=
  match b.data with
  | c :: _ => c = c0
  | [] => false

/-- An unanchored `p.*$` alternative: some occurrence of `p` is followed only
by `.`-matchable characters up to the end of the string. -/
def tailDollar (p : String) : List Char → Bool
  | [] => p.data.isEmpty
  | c :: t =>
    (lpre p.data (c :: t) && ((c :: t).drop p.data.length).all isDotChar) ||
    tailDollar p t

/-- An unanchored `p.*` alternative: `p` occurs somewhere in the list. -/
def segSearch (p : List Char) : List Char → Bool
  | [] => p.isEmpty
  | c :: t => lpre p (c :: t) || segSearch p t

/-- `b` contains `p` as a contiguous segment. -/
def containsSeg (b p : String) : Bool := segSearch p.data b.data

/-- `ORDER_HINTS` from `index.ts`, one boolean matcher per regex.  Note the
JS alternation scoping: in `/^col-.*|row-.*$/` the `^` binds only to the
first alternative and the `$` only to the last, and similarly in the
alignment hint. -/
def ORDER_HINTS : List (String → Bool) :=
  [fun b => b = "container",
   fun b => b = "block" || (hasPre b "inline" && allDotFrom b 6) || b = "contents",
   fun b => b = "flex" || b = "grid" || b = "table",
   fun b => hasPre b "col-" || tailDollar "row-" b.data,
   fun b => hasPre b "gap-" && allDotFrom b 4,
   fun b => hasPre b "justify-" || containsSeg b "items-" || containsSeg b "content-" ||
            containsSeg b "place-" || tailDollar "order-" b.data,
   fun b => headIs 'p' b,
   fun b => headIs 'm' b,
   fun b => hasPre b "space-",
   fun b => startsWithAny b ["w-", "h-", "min-", "max-", "aspect-"],
   fun b => typographyTest b,
   fun b => colorsTest b,
   fun b => bordersTest b,
   fun b => startsWithAny b ["transform", "scale-", "rotate-", "translate-",
                             "skew-", "blur", "backdrop-"],
   fun b => interactivityTest b,
   fun b => accessibilityTest b]

/-- Index of the first matcher in the list accepting `b`. -/
def findHintIdx : List (String → Bool) → String → Option Nat
  | [], _ => none
  | h :: t, b => if h b then some 0 else (findHintIdx t b).map (· + 1)

/-- `baseScore` from `index.ts`: first matching hint index, else
`ORDER_HINTS.length + 1`. -/
def baseScore (b : String) : Nat :=
  (findHintIdx ORDER_HINTS b).getD (ORDER_HINTS.length + 1)

/-- JS `Array.prototype.indexOf` on a string list (`some i` instead of `i`,
`none` instead of `-1`). -/
def idxOfStr : List String → String → Option Nat
  | [], _ => none
  | a :: t, v => if a = v then some 0 else (idxOfStr t v).map (· + 1)

/-- The scan of `variantPriorityScore` over the token's variants. -/
def vpsGo (ord : List String) : List String → Nat
  | [] => 9999
  | v :: vs =>
    match idxOfStr ord v with
    | some i => i
    | none => vpsGo ord vs

/-- `variantPriorityScore` from `index.ts`. -/
def variantPriorityScore (variants ord : List String) : Nat :=
  if ord.isEmpty ∨ variants.isEmpty then 9999 else vpsGo ord variants

/-- The claim/spec wording of the variant score: the index in the priority
list of the first of the token's variants (in the token's own left-to-right
order) that appears in the list, or the sentinel when the list is absent or
empty, the token has no variants, or none of its variants appear. -/
def specVariantScore (variants ord : List String) : Nat :=
  if ord = [] ∨ variants = [] then 9999
  else
    match variants.find? (fun v => ord.contains v) with
    | some v => ord.indexOf v
    | none => 9999

/-- A parsed token of the `formatClasses` pipeline (`parsed` array entries). -/
structure Parsed where
  token : String
  base : String
  variants : List String
  group : GroupKey
  idx : Nat
  sBase : Nat
  sVar : Nat
deriving DecidableEq, Repr

/-- `opts.groupOrder ?? DEFAULT_ORDER`. -/
def effOrder (opts : FormatOptions) : List GroupKey :=
  opts.groupOrder.getD DEFAULT_ORDER

/-- One entry of the `parsed` array of `formatClasses`. -/
def mkParsed (tw : TwConf) (i : Nat) (t : String) : Parsed :=
  let s := stripVariantsWith (variantBaseList tw.variants) t
  let b := String.mk s.2
  { token := t, base := b, variants := s.1, group := classifyWithConfig b tw,
    idx := i, sBase := baseScore b, sVar := variantPriorityScore s.1 tw.variants }

/-- The `parsed` array: `tokens.map((t, i) => ...)`. -/
def parsedOf (input : String) (opts : FormatOptions) : List Parsed :=
  (splitTokens input).enum.map (fun p => mkParsed opts.tailwind p.1 p.2)

/-- The group a token's content is classified into by the pipeline. -/
def tokenGroup (tw : TwConf) (t : String) : GroupKey :=
  classifyWithConfig (String.mk (stripVariantsWith (variantBaseList tw.variants) t).2) tw

/-- The bucket `Map` of `formatClasses` holds an entry for each key of the
effective order plus `misc`; `buckets.get(item.group)!` on any other group is
`undefined` and the subsequent `.push` throws a `TypeError`.  This predicate
is true exactly when that happens. -/
def formatCrashes (input : String) (opts : FormatOptions) : Bool :=
  (parsedOf input opts).any
    (fun p => ¬(p.group ∈ effOrder opts ∨ p.group = GroupKey.misc))

/-- Appending one token to one bucket of a total bucket map. -/
def pushAt (m : GroupKey → List String) (g : GroupKey) (t : String) :
    GroupKey → List String :=
  fun k => if k = g then m k ++ [t] else m k

/-- The distribution loop
`for (const item of parsed) buckets.get(item.group)!.push(item.token)`. -/
def distAux : List Parsed → (GroupKey → List String) → (GroupKey → List String)
  | [], m => m
  | p :: rest, m => distAux rest (pushAt m p.group p.token)

/-- The bucket contents after distribution. -/
def bucketMap (input : String) (opts : FormatOptions) : GroupKey → List String :=
  distAux (parsedOf input opts) (fun _ => [])

/-- The tokens of one group bucket, in original input order. -/
def bucketTokens (input : String) (opts : FormatOptions) (g : GroupKey) : List String :=
  bucketMap input opts g

/-- The composite comparator of the in-bucket sort:
`a.sVar - b.sVar || a.sBase - b.sBase || a.idx - b.idx`, as a total preorder. -/
def keyLe (a b : Parsed) : Prop :=
  a.sVar < b.sVar ∨
  (a.sVar = b.sVar ∧ (a.sBase < b.sBase ∨ (a.sBase = b.sBase ∧ a.idx ≤ b.idx)))

instance : DecidableRel keyLe := fun a b => by
  unfold keyLe
  infer_instance

/-- Fallback for the non-null assertion in `arr.map((t) => parsed.find((p) =>
p.token === t)!)`; never reached because every bucket token occurs in
`parsed`. -/
def dummyParsed : Parsed :=
  { token := "", base := "", variants := [], group := .misc, idx := 0,
    sBase := 0, sVar := 0 }

/-- `parsed.find((p) => p.token === t)!`. -/
def findParsed (ps : List Parsed) (t : String) : Parsed :=
  (ps.find? (fun p => p.token = t)).getD dummyParsed

/-- One bucket after the stable in-bucket sort of `formatClasses`.  JS
`Array.prototype.sort` is stable and orders by the comparator; elements
comparing equal here are the identical `parsed` entry (the `find`-first
lookup maps duplicate token strings to the same entry), so the sorted bucket
is the unique comparator-sorted permutation, here produced by a stable
insertion sort. -/
def sortedItems (input : String) (opts : FormatOptions) (g : GroupKey) : List Parsed :=
  List.insertionSort keyLe
    ((bucketTokens input opts g).map (findParsed (parsedOf input opts)))

/-- The token strings of one sorted bucket. -/
def sortedBucket (input : String) (opts : FormatOptions) (g : GroupKey) : List String :=
  (sortedItems input opts g).map (fun p => p.token)

/-- `Array.prototype.join(" ")`. -/
def joinSp : List String → List Char
  | [] => []
  | [t] => t.data
  | t :: rest => t.data ++ ' ' :: joinSp rest

/-- JS `String.prototype.trim` (whitespace from both ends). -/
def jsTrim (l : List Char) : List Char :=
  ((l.dropWhile isWsChar).reverse.dropWhile isWsChar).reverse

/-- The token sequence emitted into the flat output:
`order.flatMap((k) => buckets.get(k)!)`. -/
def emittedTokens (input : String) (opts : FormatOptions) : List String :=
  (effOrder opts).flatMap (sortedBucket input opts)

/-- `formatClasses` in flat-string mode; `none` models the thrown
`TypeError` when a token's group has no bucket. -/
def formatFlat (input : String) (opts : FormatOptions) : Option String :=
  if formatCrashes input opts then none
  else some (String.mk (jsTrim (joinSp (emittedTokens input opts))))

/-- The per-group chunks of `splitPerGroup` mode before joining:
`order.map((k) => buckets.get(k)!).filter((g) => g.length)`. -/
def emittedChunks (input : String) (opts : FormatOptions) : List (List String) :=
  ((effOrder opts).map (sortedBucket input opts)).filter (fun c => ¬c.isEmpty)

/-- `formatClasses` in `splitPerGroup` mode. -/
def formatSplit (input : String) (opts : FormatOptions) : Option (List String) :=
  if formatCrashes input opts then none
  else some ((emittedChunks input opts).map (fun c => String.mk (joinSp c)))

/-- `formatClasses` from `index.ts`, with the overloaded return type as a sum
and the thrown `TypeError` as `none`. -/
def formatClasses (input : String) (opts : FormatOptions) :
    Option (String ⊕ List String) :=
  if opts.splitPerGroup then (formatSplit input opts).map Sum.inr
  else (formatFlat input opts).map Sum.inl

/-- The token loop of `categorize`, filling the ten-key record `map`. -/
def catAux (tw : TwConf) : List String → (GroupKey → List String) → (GroupKey → List String)
  | [], m => m
  | t :: rest, m => catAux tw rest (pushAt m (tokenGroup tw t) t)

/-- The total ten-key record `map` built by `categorize`. -/
def catMap (input : String) (opts : FormatOptions) : GroupKey → List String :=
  catAux opts.tailwind (splitTokens input) (fun _ => [])

/-- JS object property assignment `obj[k] = v` on an insertion-ordered
association list: overwrite in place if the key exists, else append. -/
def jsInsert (m : List (GroupKey × List String)) (k : GroupKey) (v : List String) :
    List (GroupKey × List String) :=
  if m.any (fun e => e.1 = k) then
    m.map (fun e => if e.1 = k then (k, v) else e)
  else m ++ [(k, v)]

/-- `categorize` from `index.ts`: the `ordered` object is built by assigning
`ordered[k] = map[k]` for `k` of the effective order, then
`if (!ordered.misc) ordered.misc = map.misc` (an array value is always
truthy, so the guard is exactly key absence). -/
def categorize (input : String) (opts : FormatOptions) : List (GroupKey × List String) :=
  let m := catMap input opts
  let ordered := (effOrder opts).foldl (fun acc k => jsInsert acc k (m k)) []
  if ordered.any (fun e => e.1 = GroupKey.misc) then ordered
  else ordered ++ [(GroupKey.misc, m GroupKey.misc)]

/-- Plain whitespace splitting (no bracket awareness), for the literal reading
of "whitespace-separated tokens present in the flat output". -/
def wsSplitAux : List Char → List Char → List String
  | [], cur => if cur.isEmpty then [] else [String.mk cur]
  | c :: rest, cur =>
    if isWsChar c then
      (if cur.isEmpty then [] else [String.mk cur]) ++ wsSplitAux rest []
    else
      wsSplitAux rest (cur ++ [c])

/-- Whitespace-separated tokens of a string. -/
def wsSplit (s : String) : List String := wsSplitAux s.data []

end TwCn

namespace TwCn

/-! ### Basic facts about the embedded pipeline -/

theorem splitAux_cons (c : Char) (rest cur : List Char) (d : Nat) :
    splitAux (c :: rest) cur d =
      if isWsChar c ∧ depthStep d c = 0 then
        (if cur.isEmpty then [] else [String.mk cur]) ++ splitAux rest [] (depthStep d c)
      else splitAux rest (cur ++ [c]) (depthStep d c) := rfl

theorem ws_not_bracket {c : Char} (h : isWsChar c = true) : c ≠ '[' ∧ c ≠ ']' := by
  constructor <;> rintro rfl
  · exact absurd h (by decide)
  · exact absurd h (by decide)

theorem depthStep_ws {d : Nat} {c : Char} (h : isWsChar c = true) : depthStep d c = d := by
  have hb := ws_not_bracket h
  unfold depthStep
  rw [if_neg hb.1, if_neg (fun hc => hb.2 hc.1)]

theorem mkParsed_token (tw : TwConf) (i : Nat) (t : String) :
    (mkParsed tw i t).token = t := rfl

theorem mkParsed_group (tw : TwConf) (i : Nat) (t : String) :
    (mkParsed tw i t).group = tokenGroup tw t := rfl

theorem parsedOf_token_map (input : String) (opts : FormatOptions) :
    (parsedOf input opts).map (fun p => p.token) = splitTokens input := by
  unfold parsedOf
  rw [List.map_map]
  have h : ((fun p : Parsed => p.token) ∘ fun p : Nat × String =>
      mkParsed opts.tailwind p.1 p.2) = Prod.snd := by
    funext p
    rfl
  rw [h, List.enum_map_snd]

theorem mem_parsedOf_group (input : String) (opts : FormatOptions) {p : Parsed}
    (hp : p ∈ parsedOf input opts) :
    p.group = tokenGroup opts.tailwind p.token := by
  unfold parsedOf at hp
  rcases List.mem_map.1 hp with ⟨q, _, rfl⟩
  rfl

theorem distAux_eq (ps : List Parsed) : ∀ (m : GroupKey → List String) (g : GroupKey),
    distAux ps m g = m g ++ (ps.filter (fun p => p.group = g)).map (fun p => p.token) := by
  induction ps with
  | nil => intro m g; simp [distAux]
  | cons p t ih =>
    intro m g
    rw [distAux, ih, List.filter_cons]
    by_cases h : p.group = g
    · rw [if_pos (by simpa using h)]
      simp [pushAt, h.symm]
    · rw [if_neg (by simpa using h)]
      simp [pushAt, Ne.symm h]

theorem bucketTokens_eq (input : String) (opts : FormatOptions) (g : GroupKey) :
    bucketTokens input opts g =
      ((parsedOf input opts).filter (fun p => p.group = g)).map (fun p => p.token) := by
  unfold bucketTokens bucketMap
  rw [distAux_eq]
  rfl

theorem catAux_eq (tw : TwConf) (ts : List String) :
    ∀ (m : GroupKey → List String) (g : GroupKey),
    catAux tw ts m g = m g ++ ts.filter (fun t => tokenGroup tw t = g) := by
  induction ts with
  | nil => intro m g; simp [catAux]
  | cons t ts ih =>
    intro m g
    rw [catAux, ih, List.filter_cons]
    by_cases h : tokenGroup tw t = g
    · rw [if_pos (by simpa using h)]
      simp [pushAt, h.symm]
    · rw [if_neg (by simpa using h)]
      simp [pushAt, Ne.symm h]

theorem catMap_eq (input : String) (opts : FormatOptions) (g : GroupKey) :
    catMap input opts g =
      (splitTokens input).filter (fun t => tokenGroup opts.tailwind t = g) := by
  unfold catMap
  rw [catAux_eq]
  rfl

theorem findParsed_spec {ps : List Parsed} {t : String}
    (h : ∃ p ∈ ps, p.token = t) :
    findParsed ps t ∈ ps ∧ (findParsed ps t).token = t := by
  unfold findParsed
  have h2 : (ps.find? (fun p => p.token = t)).isSome = true := by
    apply List.find?_isSome.2
    obtain ⟨p, hp, he⟩ := h
    exact ⟨p, hp, by simpa using he⟩
  obtain ⟨q, hq⟩ := Option.isSome_iff_exists.1 h2
  rw [hq]
  refine ⟨List.mem_of_find?_eq_some hq, ?_⟩
  simpa using List.find?_some hq

end TwCn

namespace TwCn

theorem sortedBucket_group (input : String) (opts : FormatOptions) (g : GroupKey)
    {t : String} (ht : t ∈ sortedBucket input opts g) :
    tokenGroup opts.tailwind t = g := by
  unfold sortedBucket at ht
  rcases List.mem_map.1 ht with ⟨q, hq, rfl⟩
  unfold sortedItems at hq
  have hq2 := (List.perm_insertionSort keyLe _).mem_iff.1 hq
  rcases List.mem_map.1 hq2 with ⟨t2, ht2, rfl⟩
  rw [bucketTokens_eq] at ht2
  rcases List.mem_map.1 ht2 with ⟨p, hp, rfl⟩
  have hpf := List.mem_filter.1 hp
  have hg : p.group = g := by simpa using hpf.2
  have hf := findParsed_spec ⟨p, hpf.1, rfl⟩
  rw [hf.2, ← mem_parsedOf_group input opts hpf.1]
  exact hg

end TwCn

namespace TwCn

/-- C5: when the caller-supplied `groupOrder` omits `misc`, no token
classified into `misc` occurs among the tokens emitted into the flat output,
nor in any chunk of the `splitPerGroup` output. -/
theorem claim5_misc_omitted (input : String) (opts : FormatOptions) (go : List GroupKey)
    (hgo : opts.groupOrder = some go) (hmisc : GroupKey.misc ∉ go) :
    (∀ t ∈ emittedTokens input opts, tokenGroup opts.tailwind t ≠ GroupKey.misc) ∧
    (∀ c ∈ emittedChunks input opts, ∀ t ∈ c, tokenGroup opts.tailwind t ≠ GroupKey.misc) := by
  have horder : effOrder opts = go := by
    unfold effOrder
    rw [hgo]
    rfl
  constructor
  · intro t ht
    rcases List.mem_flatMap.1 ht with ⟨g, hg, htg⟩
    rw [sortedBucket_group input opts g htg]
    rw [horder] at hg
    exact fun he => hmisc (he ▸ hg)
  · intro c hc t ht
    have hc2 := (List.mem_filter.1 hc).1
    rcases List.mem_map.1 hc2 with ⟨g, hg, rfl⟩
    rw [sortedBucket_group input opts g ht]
    rw [horder] at hg
    exact fun he => hmisc (he ▸ hg)

/-- Witness for C5 at a concrete input: `groupOrder = [layout]` omits `misc`,
and neither the emitted flat tokens nor the chunks contain the `misc` token
`zzz`. -/
theorem claim5_misc_omitted_witness :
    (∀ t ∈ emittedTokens "flex zzz" { groupOrder := some [GroupKey.layout] },
        tokenGroup ({ groupOrder := some [GroupKey.layout] } : FormatOptions).tailwind t ≠
          GroupKey.misc) ∧
    (∀ c ∈ emittedChunks "flex zzz" { groupOrder := some [GroupKey.layout] },
        ∀ t ∈ c,
          tokenGroup ({ groupOrder := some [GroupKey.layout] } : FormatOptions).tailwind t ≠
            GroupKey.misc) :=
  claim5_misc_omitted "flex zzz" { groupOrder := some [GroupKey.layout] }
    [GroupKey.layout] rfl (by decide)

/-- C9: any matching `customUtilities` entry (string entries as literal
prefixes, regex entries as pattern tests) classifies the base into `misc`,
short-circuiting the heuristic rule groups. -/
theorem claim9_custom_short_circuit (tw : TwConf) (base : String)
    (h : ∃ cu ∈ tw.customUtilities, cuMatches base cu = true) :
    classifyWithConfig base tw = GroupKey.misc := by
  have hb : tw.customUtilities.any (cuMatches base) = true := List.any_eq_true.2 h
  simp [classifyWithConfig, hb]

/-- Witness for C9: the literal entry `btn` matches the base `btn-primary`
(which would otherwise be classified by no heuristic rule), yielding `misc`. -/
theorem claim9_custom_short_circuit_witness :
    classifyWithConfig "btn-primary" { customUtilities := [CustomUtil.lit "btn"] } =
      GroupKey.misc :=
  claim9_custom_short_circuit { customUtilities := [CustomUtil.lit "btn"] } "btn-primary"
    ⟨CustomUtil.lit "btn", List.Mem.head _, by decide⟩

/-- C8: the variant splitter reads only `tailwind.variants`: two
configurations that differ only in `tailwind.prefix` produce the same
(base, variants) split for every token. -/
theorem claim8_pfx_noninterference (tw₁ tw₂ : TwConf) (i : Nat) (t : String)
    (hv : tw₁.variants = tw₂.variants)
    (hcu : tw₁.customUtilities = tw₂.customUtilities) :
    stripVariantsWith (variantBaseList tw₁.variants) t =
      stripVariantsWith (variantBaseList tw₂.variants) t ∧
    (mkParsed tw₁ i t).base = (mkParsed tw₂ i t).base ∧
    (mkParsed tw₁ i t).variants = (mkParsed tw₂ i t).variants := by
  refine ⟨?_, ?_, ?_⟩ <;> simp [mkParsed, hv]

/-- Witness for C8: a configured prefix `tw-` does not change the variant
split of `sm:flex`. -/
theorem claim8_pfx_noninterference_witness :
    stripVariantsWith (variantBaseList ({ pfx := "tw-" } : TwConf).variants) "sm:flex" =
      stripVariantsWith (variantBaseList ({} : TwConf).variants) "sm:flex" ∧
    (mkParsed { pfx := "tw-" } 0 "sm:flex").base = (mkParsed {} 0 "sm:flex").base ∧
    (mkParsed { pfx := "tw-" } 0 "sm:flex").variants = (mkParsed {} 0 "sm:flex").variants :=
  claim8_pfx_noninterference { pfx := "tw-" } {} 0 "sm:flex" rfl rfl

/-- C1 (code bug): `formatClasses` is not idempotent.  On the input
`"y]:p-1 bg-red-500 sm:[x"` with `tailwind.variants = ["sm"]` the first pass
emits the unterminated-bracket token `sm:[x` before `y]:p-1`; re-tokenizing
the output merges them into the single token `sm:[x y]:p-1`, whose bracket
segment now parses as an arbitrary variant, so the base becomes `p-1`
(spacing) and the token moves in front of the colors token. -/
theorem claim1_not_idempotent :
    formatFlat "y]:p-1 bg-red-500 sm:[x" { tailwind := { variants := ["sm"] } } =
      some "bg-red-500 sm:[x y]:p-1" ∧
    formatFlat "bg-red-500 sm:[x y]:p-1" { tailwind := { variants := ["sm"] } } =
      some "sm:[x y]:p-1 bg-red-500" ∧
    ("bg-red-500 sm:[x y]:p-1" : String) ≠ "sm:[x y]:p-1 bg-red-500" := by
  refine ⟨?_, ?_, ?_⟩ <;> decide

/-- C2 (code bug): `formatClasses` is not total over the documented
configuration type.  With `groupOrder = [misc]` the token `flex` is
classified `layout`, no `layout` bucket exists, and
`buckets.get("layout")!.push(...)` throws (modelled as `none`). -/
theorem claim2_crash :
    (parsedOf "flex" { groupOrder := some [GroupKey.misc] }).map (fun p => p.group) =
      [GroupKey.layout] ∧
    formatClasses "flex" { groupOrder := some [GroupKey.misc] } = none ∧
    formatFlat "flex" { groupOrder := some [GroupKey.misc] } = none := by
  refine ⟨?_, ?_, ?_⟩ <;> decide

/-- C3 counterexample: on the balanced input `"[a b]"` (one token, default
configuration, `misc` populated and contained in the default order) the flat
output is `"[a b]"`, whose whitespace-separated tokens `["[a", "b]"]` are not
a permutation of `tokenize "[a b]" = ["[a b]"]` — the bracketed token's
content is split by plain whitespace separation. -/
theorem claim3_cex :
    tokenize "[a b]" = ["[a b]"] ∧
    formatFlat "[a b]" {} = some "[a b]" ∧
    wsSplit "[a b]" = ["[a", "b]"] ∧
    ¬ (wsSplit "[a b]").Perm (tokenize "[a b]") := by
  refine ⟨?_, ?_, ?_, ?_⟩ <;> decide

end TwCn

namespace TwCn

/-! ### The in-bucket comparator and the variant score -/

instance : IsTrans Parsed keyLe :=
  ⟨by
    intro a b c hab hbc
    unfold keyLe at hab hbc ⊢
    omega⟩

instance : IsTotal Parsed keyLe :=
  ⟨by
    intro a b
    unfold keyLe
    omega⟩

theorem idxOfStr_eq (l : List String) (v : String) :
    idxOfStr l v = if l.contains v then some (l.indexOf v) else none := by
  induction l with
  | nil => rfl
  | cons a t ih =>
    by_cases h : a = v
    · subst h
      simp [idxOfStr, List.indexOf_cons, List.contains_cons]
    · have h2 : (v == a) = false := by
        simpa using fun hh : v = a => h hh.symm
      have h3 : (a == v) = false := by simpa using h
      rw [idxOfStr, if_neg h, ih, List.contains_cons, h2, List.indexOf_cons, h3]
      by_cases hc : t.contains v
      · simp [hc]
      · simp [hc]

theorem vpsGo_eq (ord : List String) : ∀ (vs : List String),
    vpsGo ord vs = (match vs.find? (fun v => ord.contains v) with
                    | some v => ord.indexOf v
                    | none => 9999) := by
  intro vs
  induction vs with
  | nil => rfl
  | cons v t ih =>
    rw [vpsGo, idxOfStr_eq]
    by_cases h : v ∈ ord
    · simp [List.find?_cons, h]
    · simp [List.find?_cons, h, ih]

theorem vps_spec (vs ord : List String) :
    variantPriorityScore vs ord = specVariantScore vs ord := by
  unfold variantPriorityScore specVariantScore
  by_cases h1 : ord = []
  · subst h1
    simp
  · by_cases h2 : vs = []
    · subst h2
      simp
    · rw [if_neg, if_neg, vpsGo_eq]
      · exact fun h => h.elim h1 h2
      · exact fun h =>
          h.elim (fun hh => h1 (List.isEmpty_iff.1 hh)) (fun hh => h2 (List.isEmpty_iff.1 hh))

/-- C4: each output bucket of `formatClasses` is the comparator-sorted
permutation of its contents — sorted by `keyLe` (variant score, then base
score, then original index, all ascending) — and the variant score used in
the key agrees, for all inputs, with the claim's description
(`specVariantScore`): the index in the priority list of the first of the
token's variants appearing there, or the 9999 sentinel when the list is
absent or empty, the token has no variants, or none appear. -/
theorem claim4_bucket_sort (input : String) (opts : FormatOptions) (g : GroupKey) :
    (sortedItems input opts g).Sorted keyLe ∧
    (sortedItems input opts g).Perm
      ((bucketTokens input opts g).map (findParsed (parsedOf input opts))) ∧
    sortedBucket input opts g = (sortedItems input opts g).map (fun p => p.token) ∧
    ∀ vs ord, variantPriorityScore vs ord = specVariantScore vs ord :=
  ⟨List.sorted_insertionSort keyLe _, List.perm_insertionSort keyLe _, rfl, vps_spec⟩

/-! ### Termination of the variant-stripping loop -/

theorem arbMatch_cons (c : Char) (t : List Char) :
    arbMatch (c :: t) =
      if c = '[' then
        (let inner := t.takeWhile (fun x => ¬(x = ']'))
         let after := t.drop inner.length
         if after.head? = some ']' ∧ (after.drop 1).head? = some ':' ∧ ¬inner.isEmpty then
           some ('[' :: (inner ++ [']', ':']))
         else none)
      else none := rfl

theorem arbMatch_spec {rest raw : List Char} (h : arbMatch rest = some raw) :
    0 < raw.length ∧ raw.getLast? = some ':' ∧ raw.length ≤ rest.length := by
  cases rest with
  | nil => exact absurd h (by simp [arbMatch])
  | cons c t =>
    rw [arbMatch_cons] at h
    by_cases hc : c = '['
    · rw [if_pos hc] at h
      dsimp only at h
      split at h
      · rename_i hcond
        obtain ⟨hcl, hco, hne⟩ := hcond
        have hraw : raw = '[' :: (t.takeWhile (fun x => ¬(x = ']')) ++ [']', ':']) :=
          (Option.some.inj h).symm
        set inner := t.takeWhile (fun x => ¬(x = ']')) with hinner
        set after := t.drop inner.length with hafter
        have ha1 : after ≠ [] := by
          intro hh
          rw [hh] at hcl
          simp at hcl
        have ha2 : after.drop 1 ≠ [] := by
          intro hh
          rw [hh] at hco
          simp at hco
        have hlen1 : inner.length ≤ t.length := (List.takeWhile_sublist _).length_le
        have hlen2 : 2 ≤ after.length := by
          have b1 : 0 < after.length := List.length_pos.2 ha1
          have b2 : 0 < (after.drop 1).length := List.length_pos.2 ha2
          rw [List.length_drop] at b2
          omega
        have hlen3 : after.length = t.length - inner.length := by
          rw [hafter, List.length_drop]
        refine ⟨by simp [hraw], ?_, ?_⟩
        · rw [hraw]
          have : ('[' :: (inner ++ [']', ':'])) = ('[' :: (inner ++ [']'])) ++ [':'] := by
            simp
          rw [this, List.getLast?_concat]
        · rw [hraw]
          simp only [List.length_cons, List.length_append]
          simp
          omega
      · exact absurd h (by simp)
    · rw [if_neg hc] at h
      exact absurd h (by simp)

theorem namedMatch_spec : ∀ {bl : List String} {rest raw : List Char},
    namedMatch bl rest = some raw →
    0 < raw.length ∧ raw.getLast? = some ':' ∧ raw.length ≤ rest.length := by
  intro bl
  induction bl with
  | nil => intro rest raw h; exact absurd h (by simp [namedMatch])
  | cons v vs ih =>
    intro rest raw h
    rw [namedMatch] at h
    split at h
    · rename_i hcond
      have hraw : raw = rest.take (v.data.length + 1) := (Option.some.inj h).symm
      have hd : rest.drop v.data.length ≠ [] := by
        intro hh
        rw [hh] at hcond
        simp at hcond
      have hvlen : v.data.length < rest.length := by
        have := List.length_pos.2 hd
        rw [List.length_drop] at this
        omega
      obtain ⟨c0, r2, hdec⟩ : ∃ c0 r2, rest.drop v.data.length = c0 :: r2 := by
        cases hx : rest.drop v.data.length with
        | nil => exact absurd hx hd
        | cons a b => exact ⟨a, b, rfl⟩
      have hc0 : c0 = ':' := by
        have := hcond.2
        rw [hdec] at this
        simpa using this
      subst hc0
      have hsplit : rest = rest.take v.data.length ++ (':' :: r2) := by
        rw [← hdec, List.take_append_drop]
      have htlen : (rest.take v.data.length).length = v.data.length := by
        rw [List.length_take]
        omega
      refine ⟨?_, ?_, ?_⟩
      · rw [hraw, List.length_take]
        omega
      · rw [hraw]
        conv_lhs => rw [hsplit]
        have : v.data.length + 1 = (rest.take v.data.length).length + 1 := by omega
        rw [this, List.take_append]
        have h1 : List.take 1 (':' :: r2) = [':'] := rfl
        rw [h1, List.getLast?_concat]
      · rw [hraw, List.length_take]
        omega
    · exact ih h

theorem variantMatch_spec {bl : List String} {rest raw : List Char}
    (h : variantMatch bl rest = some raw) :
    0 < raw.length ∧ raw.getLast? = some ':' ∧ raw.length ≤ rest.length := by
  unfold variantMatch at h
  cases ha : arbMatch rest with
  | some r =>
    rw [ha] at h
    exact (Option.some.inj h) ▸ arbMatch_spec ha
  | none =>
    rw [ha] at h
    exact namedMatch_spec h

theorem stripGo_fuel (bl : List String) : ∀ (f1 f2 : Nat) (rest : List Char),
    rest.length < f1 → rest.length < f2 → stripGo bl f1 rest = stripGo bl f2 rest := by
  intro f1
  induction f1 with
  | zero => intro f2 rest h1 _; omega
  | succ f ih =>
    intro f2 rest h1 h2
    cases f2 with
    | zero => omega
    | succ f2 =>
      rw [stripGo, stripGo]
      cases hm : variantMatch bl rest with
      | none => rfl
      | some raw =>
        have hs := variantMatch_spec hm
        have hd : (rest.drop raw.length).length < rest.length := by
          rw [List.length_drop]
          omega
        dsimp only
        rw [ih f2 (rest.drop raw.length) (by omega) (by omega)]

/-- C10: the `while` loop of `stripVariantsWith` terminates on every token
and every compiled variant pattern: each matched leading segment `m[0]` ends
in `:`, hence is non-empty, and stripping it strictly shortens the remaining
token; consequently the fuel-indexed model of the loop is independent of any
sufficiently large fuel (so `formatClasses` and `categorize`, which run it
with fuel `token.length + 1`, are well defined on every input). -/
theorem claim10_strip_terminates (bl : List String) (rest raw : List Char)
    (h : variantMatch bl rest = some raw) :
    0 < raw.length ∧ raw.getLast? = some ':' ∧
    (rest.drop raw.length).length < rest.length ∧
    ∀ fuel, rest.length < fuel →
      stripGo bl fuel rest = stripGo bl (rest.length + 1) rest := by
  have hs := variantMatch_spec h
  refine ⟨hs.1, hs.2.1, ?_, ?_⟩
  · rw [List.length_drop]
    omega
  · intro fuel hf
    exact stripGo_fuel bl fuel (rest.length + 1) rest hf (by omega)

/-- Witness for C10 at a concrete match: on the token `sm:x` with variant
vocabulary `["sm"]` the matched segment is `sm:`. -/
theorem claim10_strip_terminates_witness :
    0 < ("sm:".data).length ∧ ("sm:".data).getLast? = some ':' ∧
    (("sm:x".data).drop ("sm:".data).length).length < ("sm:x".data).length ∧
    ∀ fuel, ("sm:x".data).length < fuel →
      stripGo ["sm"] fuel "sm:x".data = stripGo ["sm"] (("sm:x".data).length + 1) "sm:x".data :=
  claim10_strip_terminates ["sm"] "sm:x".data "sm:".data (by decide)

end TwCn

namespace TwCn

/-! ### Token conservation (C3) -/

theorem flatMap_perm_congr {α β : Type} (ks : List α) (f g : α → List β)
    (h : ∀ k ∈ ks, (f k).Perm (g k)) : (ks.flatMap f).Perm (ks.flatMap g) := by
  induction ks with
  | nil => simp
  | cons k t ih =>
    rw [List.flatMap_cons, List.flatMap_cons]
    exact (h k (List.Mem.head _)).append (ih (fun x hx => h x (List.Mem.tail _ hx)))

theorem partition_perm (ks : List GroupKey) : ∀ (l : List Parsed), ks.Nodup →
    (∀ p ∈ l, p.group ∈ ks) →
    (ks.flatMap (fun k => l.filter (fun p => p.group = k))).Perm l := by
  induction ks with
  | nil =>
    intro l _ hcov
    cases l with
    | nil => simp
    | cons p t => exact absurd (hcov p (List.Mem.head _)) (List.not_mem_nil _)
  | cons k ks ih =>
    intro l hnd hcov
    rw [List.flatMap_cons]
    have hnotin : k ∉ ks := (List.nodup_cons.1 hnd).1
    have heq : ∀ k2 ∈ ks,
        l.filter (fun p => p.group = k2) =
        (l.filter (fun p => !(decide (p.group = k)))).filter (fun p => p.group = k2) := by
      intro k2 hk2
      have hk2ne : k2 ≠ k := fun hh => hnotin (hh ▸ hk2)
      rw [List.filter_filter]
      apply List.filter_congr
      intro p _
      by_cases hpg : p.group = k2
      · simp [hpg, hk2ne]
      · simp [hpg]
    have hcov2 : ∀ p ∈ l.filter (fun p => !(decide (p.group = k))), p.group ∈ ks := by
      intro p hp
      have h2 := List.mem_filter.1 hp
      have hne : p.group ≠ k := by simpa using h2.2
      rcases List.mem_cons.1 (hcov p h2.1) with h4 | h4
      · exact absurd h4 hne
      · exact h4
    have hihl := ih (l.filter (fun p => !(decide (p.group = k)))) (List.Nodup.of_cons hnd) hcov2
    have hmain : (ks.flatMap (fun k2 => l.filter (fun p => p.group = k2))).Perm
        (l.filter (fun p => !(decide (p.group = k)))) := by
      refine (flatMap_perm_congr ks _ _ ?_).trans hihl
      intro k2 hk2
      exact List.Perm.of_eq (heq k2 hk2)
    exact ((List.Perm.refl (l.filter (fun p => p.group = k))).append hmain).trans
      (List.filter_append_perm _ l)

/-- C3 corrected: when the effective group order is duplicate-free and
contains the group of every parsed token, `formatClasses` does not crash and
the token sequence emitted into the flat output (the concatenation of the
sorted buckets over the effective order) is a permutation of `tokenize`'s
token list — no token is added, dropped, or altered, only reordered. -/
theorem claim3_conservation (input : String) (opts : FormatOptions)
    (hnd : (effOrder opts).Nodup)
    (hcov : ∀ p ∈ parsedOf input opts, p.group ∈ effOrder opts) :
    formatCrashes input opts = false ∧
    (emittedTokens input opts).Perm (splitTokens input) := by
  constructor
  · unfold formatCrashes
    rw [List.any_eq_false]
    intro p hp
    simp [hcov p hp]
  · unfold emittedTokens
    have h1 : ((effOrder opts).flatMap (sortedBucket input opts)).Perm
        ((effOrder opts).flatMap (fun g =>
          ((parsedOf input opts).filter (fun p => p.group = g)).map (fun p => p.token))) := by
      apply flatMap_perm_congr
      intro g _
      have hperm : (sortedItems input opts g).Perm
          ((bucketTokens input opts g).map (findParsed (parsedOf input opts))) :=
        List.perm_insertionSort keyLe _
      have h2 : ((bucketTokens input opts g).map (findParsed (parsedOf input opts))).map
            (fun p => p.token) = bucketTokens input opts g := by
        rw [List.map_map]
        have hid : ∀ t ∈ bucketTokens input opts g,
            ((fun p => p.token) ∘ findParsed (parsedOf input opts)) t = id t := by
          intro t ht
          rw [bucketTokens_eq] at ht
          rcases List.mem_map.1 ht with ⟨p, hp, rfl⟩
          exact (findParsed_spec ⟨p, (List.mem_filter.1 hp).1, rfl⟩).2
        rw [List.map_congr_left hid, List.map_id]
      have h3 : (((bucketTokens input opts g).map (findParsed (parsedOf input opts))).map
            (fun p => p.token)).Perm
          (((parsedOf input opts).filter (fun p => p.group = g)).map (fun p => p.token)) := by
        rw [h2, bucketTokens_eq]
      exact (hperm.map (fun p => p.token)).trans h3
    have h2 : ((effOrder opts).flatMap (fun g =>
        ((parsedOf input opts).filter (fun p => p.group = g)).map (fun p => p.token))) =
        ((effOrder opts).flatMap (fun g =>
          (parsedOf input opts).filter (fun p => p.group = g))).map (fun p => p.token) :=
      (List.map_flatMap _ _ _).symm
    have h3 := (partition_perm (effOrder opts) (parsedOf input opts) hnd hcov).map
      (fun p => p.token)
    rw [parsedOf_token_map] at h3
    exact h1.trans (h2 ▸ h3)

/-- Witness for C3 (corrected form) at a concrete input with the default
order: the emitted tokens are a permutation of the tokenized input. -/
theorem claim3_conservation_witness :
    formatCrashes "flex p-2" {} = false ∧
    (emittedTokens "flex p-2" {}).Perm (splitTokens "flex p-2") :=
  claim3_conservation "flex p-2" {} (by decide) (by decide)

end TwCn

namespace TwCn

/-! ### Group coverage of `categorize` (C7) -/

theorem jsInsert_val {m : List (GroupKey × List String)} {mp : GroupKey → List String}
    (hm : ∀ e ∈ m, e.2 = mp e.1) (k : GroupKey) :
    ∀ e ∈ jsInsert m k (mp k), e.2 = mp e.1 := by
  intro e he
  unfold jsInsert at he
  split at he
  · rcases List.mem_map.1 he with ⟨e0, he0, rfl⟩
    by_cases h : e0.1 = k
    · simp [h]
    · simp only [if_neg h]
      exact hm e0 he0
  · rcases List.mem_append.1 he with h2 | h2
    · exact hm e h2
    · have he2 : e = (k, mp k) := by simpa using h2
      rw [he2]

theorem jsInsert_key (m : List (GroupKey × List String)) (k0 : GroupKey) (v : List String)
    (k : GroupKey) (h : (∃ e ∈ m, e.1 = k) ∨ k = k0) :
    ∃ e ∈ jsInsert m k0 v, e.1 = k := by
  unfold jsInsert
  by_cases hany : m.any (fun e => e.1 = k0)
  · rw [if_pos hany]
    rcases h with ⟨e, he, hek⟩ | rfl
    · by_cases hek0 : e.1 = k0
      · exact ⟨(k0, v), List.mem_map.2 ⟨e, he, by rw [if_pos hek0]⟩, by rw [← hek, hek0]⟩
      · exact ⟨e, List.mem_map.2 ⟨e, he, by rw [if_neg hek0]⟩, hek⟩
    · rcases List.any_eq_true.1 hany with ⟨e, he, hek0⟩
      have hek0b : e.1 = k := by simpa using hek0
      exact ⟨(k, v), List.mem_map.2 ⟨e, he, by rw [if_pos hek0b]⟩, rfl⟩
  · rw [if_neg hany]
    rcases h with ⟨e, he, hek⟩ | rfl
    · exact ⟨e, List.mem_append_left _ he, hek⟩
    · exact ⟨(k, v), List.mem_append_right _ (List.Mem.head _), rfl⟩

theorem foldl_jsInsert_val (mp : GroupKey → List String) :
    ∀ (ks : List GroupKey) (acc : List (GroupKey × List String)),
    (∀ e ∈ acc, e.2 = mp e.1) →
    ∀ e ∈ ks.foldl (fun a k2 => jsInsert a k2 (mp k2)) acc, e.2 = mp e.1 := by
  intro ks
  induction ks with
  | nil => intro acc hacc; simpa using hacc
  | cons k t ih =>
    intro acc hacc
    rw [List.foldl_cons]
    exact ih _ (jsInsert_val hacc k)

theorem foldl_jsInsert_key (mp : GroupKey → List String) :
    ∀ (ks : List GroupKey) (acc : List (GroupKey × List String)) (k : GroupKey),
    (k ∈ ks ∨ ∃ e ∈ acc, e.1 = k) →
    ∃ e ∈ ks.foldl (fun a k2 => jsInsert a k2 (mp k2)) acc, e.1 = k := by
  intro ks
  induction ks with
  | nil =>
    intro acc k h
    rcases h with h | h
    · exact absurd h (List.not_mem_nil _)
    · simpa using h
  | cons k0 t ih =>
    intro acc k h
    rw [List.foldl_cons]
    apply ih
    rcases h with h | h
    · rcases List.mem_cons.1 h with rfl | h2
      · exact Or.inr (jsInsert_key acc _ (mp _) k (Or.inr rfl))
      · exact Or.inl h2
    · exact Or.inr (jsInsert_key acc k0 (mp k0) k (Or.inl h))

end TwCn

namespace TwCn

/-- C7: `categorize` returns an entry for every key of the effective group
order, plus an entry for `misc` even when `misc` is not in the supplied
order, and the value under each such key is the input's token list filtered
to that group — i.e. the tokens in their original relative input order
(possibly empty). -/
theorem claim7_group_coverage (input : String) (opts : FormatOptions) (k : GroupKey)
    (h : k ∈ effOrder opts ∨ k = GroupKey.misc) :
    (categorize input opts).find? (fun e => e.1 = k) =
      some (k, (splitTokens input).filter (fun t => tokenGroup opts.tailwind t = k)) := by
  have hcat : categorize input opts =
      (if ((effOrder opts).foldl (fun a k2 => jsInsert a k2 (catMap input opts k2)) []).any
          (fun e => e.1 = GroupKey.misc) then
        (effOrder opts).foldl (fun a k2 => jsInsert a k2 (catMap input opts k2)) []
      else
        ((effOrder opts).foldl (fun a k2 => jsInsert a k2 (catMap input opts k2)) []) ++
          [(GroupKey.misc, catMap input opts GroupKey.misc)]) := rfl
  rw [hcat]
  set ordered :=
    (effOrder opts).foldl (fun a k2 => jsInsert a k2 (catMap input opts k2)) [] with hord
  have hval : ∀ e ∈ ordered, e.2 = catMap input opts e.1 := by
    rw [hord]
    exact foldl_jsInsert_val (catMap input opts) (effOrder opts) [] (by simp)
  split
  · rename_i hany
    have hkey : ∃ e ∈ ordered, e.1 = k := by
      rcases h with h | rfl
      · rw [hord]
        exact foldl_jsInsert_key (catMap input opts) (effOrder opts) [] k (Or.inl h)
      · rcases List.any_eq_true.1 hany with ⟨e, he, hek⟩
        exact ⟨e, he, by simpa using hek⟩
    obtain ⟨e, he, hek⟩ := hkey
    have hsome : (ordered.find? (fun e => e.1 = k)).isSome = true :=
      List.find?_isSome.2 ⟨e, he, by simpa using hek⟩
    obtain ⟨e0, he0⟩ := Option.isSome_iff_exists.1 hsome
    rw [he0]
    have he0k : e0.1 = k := by simpa using List.find?_some he0
    have he0v : e0.2 = catMap input opts e0.1 := hval e0 (List.mem_of_find?_eq_some he0)
    have hpair : e0 = (k, (splitTokens input).filter
        (fun t => tokenGroup opts.tailwind t = k)) := by
      apply Prod.ext
      · simpa using he0k
      · rw [he0v, he0k, catMap_eq]
    rw [hpair]
  · rename_i hany
    rw [List.find?_append]
    rcases h with h | rfl
    · have hkey : ∃ e ∈ ordered, e.1 = k := by
        rw [hord]
        exact foldl_jsInsert_key (catMap input opts) (effOrder opts) [] k (Or.inl h)
      obtain ⟨e, he, hek⟩ := hkey
      have hsome : (ordered.find? (fun e => e.1 = k)).isSome = true :=
        List.find?_isSome.2 ⟨e, he, by simpa using hek⟩
      obtain ⟨e0, he0⟩ := Option.isSome_iff_exists.1 hsome
      rw [he0]
      have he0k : e0.1 = k := by simpa using List.find?_some he0
      have he0v : e0.2 = catMap input opts e0.1 := hval e0 (List.mem_of_find?_eq_some he0)
      have hpair : e0 = (k, (splitTokens input).filter
          (fun t => tokenGroup opts.tailwind t = k)) := by
        apply Prod.ext
        · simpa using he0k
        · rw [he0v, he0k, catMap_eq]
      rw [hpair]
      rfl
    · have hany2 : ordered.any (fun e => e.1 = GroupKey.misc) = false := by
        cases hb : ordered.any (fun e => e.1 = GroupKey.misc) with
        | true => exact absurd hb hany
        | false => rfl
      have hnone : ordered.find? (fun e => e.1 = GroupKey.misc) = none := by
        rw [List.find?_eq_none]
        exact List.any_eq_false.1 hany2
      rw [hnone]
      have hsingle : ([(GroupKey.misc, catMap input opts GroupKey.misc)].find?
          (fun e => e.1 = GroupKey.misc)) =
          some (GroupKey.misc, catMap input opts GroupKey.misc) := by
        simp [List.find?_cons]
      rw [Option.none_or, hsingle, catMap_eq]

/-- Witness for C7: with the default order, `categorize "flex" {}` has a
`layout` entry holding exactly `["flex"]` (in input order). -/
theorem claim7_group_coverage_witness :
    (categorize "flex" {}).find? (fun e => e.1 = GroupKey.layout) =
      some (GroupKey.layout,
        (splitTokens "flex").filter
          (fun t => tokenGroup ({} : FormatOptions).tailwind t = GroupKey.layout)) :=
  claim7_group_coverage "flex" {} GroupKey.layout (Or.inl (by decide))

end TwCn

namespace TwCn

/-! ### Bracket atomicity of the tokenizer (C6) -/

theorem splitAux_chunk (pre : List Char) : ∀ (rest cur : List Char) (d : Nat),
    ∃ out cur2, splitAux (pre ++ rest) cur d =
      out ++ splitAux rest cur2 (List.foldl depthStep d pre) := by
  induction pre with
  | nil => intro rest cur d; exact ⟨[], cur, by simp⟩
  | cons c p ih =>
    intro rest cur d
    rw [List.cons_append, splitAux_cons]
    by_cases h : isWsChar c = true ∧ depthStep d c = 0
    · obtain ⟨out, cur2, hh⟩ := ih rest [] (depthStep d c)
      refine ⟨(if cur.isEmpty then [] else [String.mk cur]) ++ out, cur2, ?_⟩
      rw [if_pos h, hh, List.foldl_cons, List.append_assoc]
    · obtain ⟨out, cur2, hh⟩ := ih rest (cur ++ [c]) (depthStep d c)
      exact ⟨out, cur2, by rw [if_neg h, hh, List.foldl_cons]⟩

theorem splitAux_run : ∀ (seg rest cur : List Char) (d : Nat),
    (∀ i (hi : i < seg.length), isWsChar (seg.get ⟨i, hi⟩) = true →
      0 < List.foldl depthStep d (seg.take i)) →
    splitAux (seg ++ rest) cur d =
      splitAux rest (cur ++ seg) (List.foldl depthStep d seg) := by
  intro seg
  induction seg with
  | nil => intro rest cur d _; simp
  | cons c s ih =>
    intro rest cur d hcond
    rw [List.cons_append, splitAux_cons]
    have hbranch : ¬(isWsChar c = true ∧ depthStep d c = 0) := by
      rintro ⟨hws, hd⟩
      have h0 : 0 < List.foldl depthStep d ((c :: s).take 0) :=
        hcond 0 (by simp) (by simpa using hws)
      simp only [List.take_zero, List.foldl_nil] at h0
      rw [depthStep_ws hws] at hd
      omega
    rw [if_neg hbranch]
    have hshift : ∀ i (hi : i < s.length), isWsChar (s.get ⟨i, hi⟩) = true →
        0 < List.foldl depthStep (depthStep d c) (s.take i) := by
      intro i hi hws
      have hws2 : isWsChar ((c :: s).get ⟨i + 1, by simpa using Nat.succ_lt_succ hi⟩) = true := by
        rw [List.get_cons_succ]
        exact hws
      have h2 := hcond (i + 1) (by simpa using Nat.succ_lt_succ hi) hws2
      rw [List.take_succ_cons, List.foldl_cons] at h2
      exact h2
    rw [ih rest (cur ++ [c]) (depthStep d c) hshift, List.foldl_cons, List.append_assoc]
    rfl

theorem splitAux_lands : ∀ (rest cur : List Char) (d : Nat), cur ≠ [] →
    ∃ t ∈ splitAux rest cur d, ∃ ext, t.data = cur ++ ext := by
  intro rest
  induction rest with
  | nil =>
    intro cur d hc
    have h2 : cur.isEmpty = false := by
      cases cur with
      | nil => exact absurd rfl hc
      | cons a t => rfl
    refine ⟨String.mk cur, ?_, [], by simp⟩
    simp [splitAux, h2]
  | cons c r ih =>
    intro cur d hc
    rw [splitAux_cons]
    by_cases h : isWsChar c = true ∧ depthStep d c = 0
    · rw [if_pos h]
      have h2 : cur.isEmpty = false := by
        cases cur with
        | nil => exact absurd rfl hc
        | cons a t => rfl
      refine ⟨String.mk cur, ?_, [], by simp⟩
      simp [h2]
    · rw [if_neg h]
      obtain ⟨t, ht, ext, hext⟩ := ih (cur ++ [c]) (depthStep d c) (by simp)
      exact ⟨t, ht, [c] ++ ext, by rw [hext, List.append_assoc]⟩

/-- C6: bracket atomicity of `splitTokens`.  If position `j` holds `[`,
position `k > j` holds `]`, and the scanner's bracket depth is positive at
every position strictly between them (which is exactly the situation for a
`[` and its matching `]` in a balanced input), then the whole segment from
`j` to `k` — interior whitespace included — lands contiguously inside a
single token of `splitTokens`: no token boundary falls strictly inside the
bracketed segment. -/
theorem claim6_bracket_atomicity (input : String) (j k : Nat)
    (hjk : j < k) (hk : k < input.data.length) (hj : j < input.data.length)
    (hopen : input.data.get ⟨j, hj⟩ = '[')
    (hclose : input.data.get ⟨k, hk⟩ = ']')
    (hdepth : ∀ i, i < k → j < i → 0 < depthAt input.data i) :
    ∃ t ∈ splitTokens input, ∃ a b,
      t.data = a ++ ((input.data.take (k + 1)).drop j) ++ b := by
  set l := input.data with hl
  have hX : l.take j ++ (l.take (k + 1)).drop j = l.take (k + 1) := by
    conv_lhs =>
      rw [show l.take j = (l.take (k + 1)).take j from by
        rw [List.take_take, Nat.min_eq_left (by omega)]]
    exact List.take_append_drop j (l.take (k + 1))
  set seg := (l.take (k + 1)).drop j with hseg
  have hseglen : seg.length = k + 1 - j := by
    rw [hseg, List.length_drop, List.length_take, Nat.min_eq_left (by omega)]
  have hsegne : seg ≠ [] := by
    intro hh
    rw [hh] at hseglen
    simp at hseglen
    omega
  have hdecomp : l = (l.take j ++ seg) ++ l.drop (k + 1) := by
    rw [hX, List.take_append_drop]
  have hjlen : (l.take j).length = j := by
    rw [List.length_take, Nat.min_eq_left (by omega)]
  have hcond : ∀ i (hi : i < seg.length), isWsChar (seg.get ⟨i, hi⟩) = true →
      0 < List.foldl depthStep (List.foldl depthStep 0 (l.take j)) (seg.take i) := by
    intro i hi hws
    have hji : j + i < l.length := by omega
    have hget : seg.get ⟨i, hi⟩ = l.get ⟨j + i, hji⟩ := by
      have hi2 : i < (List.drop j (List.take (k + 1) l)).length := hi
      have e1 : seg.get ⟨i, hi⟩ = (List.drop j (List.take (k + 1) l)).get ⟨i, hi2⟩ := rfl
      rw [e1]
      simp [List.get_eq_getElem, List.getElem_drop, List.getElem_take]
    by_cases hi0 : i = 0
    · subst hi0
      rw [hget] at hws
      have hch : l.get ⟨j + 0, hji⟩ = '[' := by simpa using hopen
      rw [hch] at hws
      exact absurd hws (by decide)
    · by_cases hik : j + i = k
      · rw [hget] at hws
        have hfe : (⟨j + i, hji⟩ : Fin l.length) = ⟨k, hk⟩ := Fin.ext hik
        rw [hfe, hclose] at hws
        exact absurd hws (by decide)
      · have hdep := hdepth (j + i) (by omega) (by omega)
        unfold depthAt at hdep
        have htake : l.take (j + i) = l.take j ++ seg.take i := by
          have h1 : l.take (j + i) = (l.take (k + 1)).take (j + i) := by
            rw [List.take_take, Nat.min_eq_left (by omega)]
          rw [h1, ← hX, List.take_append_eq_append_take]
          congr 1
          · exact List.take_of_length_le (by rw [hjlen]; omega)
          · congr 1
            rw [hjlen]
            omega
        rw [htake, List.foldl_append] at hdep
        exact hdep
  obtain ⟨out, cur2, hchunk⟩ := splitAux_chunk (l.take j) (seg ++ l.drop (k + 1)) [] 0
  have hrun := splitAux_run seg (l.drop (k + 1)) cur2 (List.foldl depthStep 0 (l.take j)) hcond
  obtain ⟨t, ht, ext, hext⟩ := splitAux_lands (l.drop (k + 1)) (cur2 ++ seg)
    (List.foldl depthStep (List.foldl depthStep 0 (l.take j)) seg)
    (fun hh => hsegne (List.append_eq_nil.1 hh).2)
  have hfull : splitAux l [] 0 =
      out ++ splitAux (l.drop (k + 1)) (cur2 ++ seg)
        (List.foldl depthStep (List.foldl depthStep 0 (l.take j)) seg) := by
    conv_lhs => rw [hdecomp, List.append_assoc]
    rw [hchunk, hrun]
  refine ⟨t, ?_, cur2, ext, ?_⟩
  · show t ∈ splitTokens input
    unfold splitTokens
    rw [← hl]
    apply List.mem_filter.2
    constructor
    · rw [hfull]
      exact List.mem_append_right _ ht
    · have htne : t.data ≠ [] := by
        rw [hext]
        intro hh
        exact hsegne (List.append_eq_nil.1 (List.append_eq_nil.1 hh).1).2
      have hts : ¬(t = "") := fun hh => htne (by rw [hh])
      simpa using hts
  · exact hext

end TwCn

namespace TwCn

/-- Witness for C6 on `"a[b c]d"`: the matched pair at positions 1 and 5
encloses the whole segment `[b c]` (with its interior space) inside a single
token. -/
theorem claim6_bracket_atomicity_witness :
    ∃ t ∈ splitTokens "a[b c]d", ∃ a b,
      t.data = a ++ ((("a[b c]d" : String).data.take (5 + 1)).drop 1) ++ b :=
  claim6_bracket_atomicity "a[b c]d" 1 5 (by decide) (by decide) (by decide)
    (by decide) (by decide) (by decide)

end TwCn
